import Mathlib

/-!
A shallow embedding of the changelog core of `src/vchangelog.py` (the
Classifier, the Categorizer & Renderer, and the Diff Reporter), together
with theorems settling the specification claims about it.

Modelling conventions:
* Python strings are `List Char` (`Str`); commit streams are `List Str`.
* Each Python regular expression is hand-compiled into a deterministic
  matcher.  In every pattern of the source the adjacent character classes
  are pairwise disjoint (a digit is never `.`; a word character is never
  `(` or `:`; a `[0-9;]` parameter is never `m`), so the greedy engine
  never needs to backtrack and maximal-munch `takeWhile`/`dropWhile`
  decompositions compute exactly the regex match and its groups.
* `\w`, `\d`, `\s` are modelled over their ASCII parts, which covers every
  character class comparison the claims exercise (the emoji label prefixes
  are neither word nor space characters in both readings).
* Fallible code (`sys.exit(1)` after a message on stderr) is `Except`,
  with the error message as payload.
-/

set_option maxHeartbeats 1000000

abbrev Str := List Char

/-- Python `\d`, on its ASCII part. -/
def pyIsDigit (c : Char) : Bool := c.isDigit

/-- Python `\s`, on its ASCII part. -/
def pyIsSpace (c : Char) : Bool :=
  c == ' ' || c == '\t' || c == '\n' || c == '\r' || c == '\x0b' || c == '\x0c'

/-- Python `\w`, on its ASCII part: alphanumeric or underscore. -/
def isWordChar (c : Char) : Bool := c.isAlphanum || c == '_'

/-- Python's substring test `needle in hay`. -/
def pyContains (needle : Str) : Str → Bool
  | [] => needle.isEmpty
  | c :: rest => decide (needle <+: c :: rest) || pyContains needle rest

/-- Python `str.split()`: split on whitespace runs, dropping empty tokens.
`acc` holds the characters of the current token, reversed. -/
def pySplitAux : Str → Str → List Str
  | acc, [] => if acc.isEmpty then [] else [acc.reverse]
  | acc, c :: rest =>
    if pyIsSpace c then
      if acc.isEmpty then pySplitAux [] rest else acc.reverse :: pySplitAux [] rest
    else pySplitAux (c :: acc) rest

/-- Python `str.split()` (no separator argument). -/
def pySplit (s : Str) : List Str := pySplitAux [] s

/-- Python `str.strip()`. -/
def pyStrip (s : Str) : Str :=
  ((s.dropWhile pyIsSpace).reverse.dropWhile pyIsSpace).reverse

/-- The characters admitted between `ESC [` and `m` by
`ANSI_ESCAPE_PATTERN = re.compile(r'\x1b\[[0-9;]*m')`. -/
def isCSIParam (c : Char) : Bool := c.isDigit || c == ';'

/-- `ANSI_ESCAPE_PATTERN.sub('', line)` as a left-to-right character state
machine.  `buf` is the pending partial escape sequence: `[]` (no pending
match), `['\x1b']` (saw the escape byte), or `'\x1b' :: '[' :: params`
(inside the bracketed sequence).  A failed partial match is flushed to the
output verbatim; no match can start strictly inside a flushed buffer
because only `'\x1b'` can start a match and the buffer's later characters
are `[`, digits and `;`. -/
def stripAnsiGo : Str → Str → Str
  | buf, [] => buf
  | [], c :: rest =>
    if c == '\x1b' then stripAnsiGo ['\x1b'] rest else c :: stripAnsiGo [] rest
  | ['\x1b'], c :: rest =>
    if c == '[' then stripAnsiGo ['\x1b', '['] rest
    else if c == '\x1b' then '\x1b' :: stripAnsiGo ['\x1b'] rest
    else '\x1b' :: c :: stripAnsiGo [] rest
  | buf, c :: rest =>
    if isCSIParam c then stripAnsiGo (buf ++ [c]) rest
    else if c == 'm' then stripAnsiGo [] rest
    else if c == '\x1b' then buf ++ stripAnsiGo ['\x1b'] rest
    else buf ++ (c :: stripAnsiGo [] rest)

/-- Strip terminal color escape codes, as the source's `ANSI_ESCAPE_PATTERN.sub`. -/
def stripAnsi (s : Str) : Str := stripAnsiGo [] s

/-! ### The version grammar `VERSION_PATTERN = r'^v?\d+\.\d+(\.\d+)?([+\-].+)?$'` -/

/-- The optional leading `v` of `v?`.  If the head is `v` the branch that
skips the group dies at the following `\d+`, so consuming it is exact. -/
def vStrip : Str → Str
  | 'v' :: r => r
  | s => s

/-- Python's `$`: end of string, or just before a single trailing newline. -/
def atLineEnd (r : Str) : Bool := r.isEmpty || r == ['\n']

/-- Matcher for a trailing `.+$`: at least one character, `.` never
matching a newline, then `$`. -/
def dotPlusEnd (r : Str) : Bool :=
  let core := if r.getLast? == some '\n' then r.dropLast else r
  !core.isEmpty && core.all (fun c => c != '\n')

/-- The tail `([+\-].+)?$` of the version pattern. -/
def vmSuffix : Str → Bool
  | [] => true
  | c :: rest => if c == '+' || c == '-' then dotPlusEnd rest else atLineEnd (c :: rest)

/-- The optional `(\.\d+)?` group: consumed exactly when a dot followed by
at least one digit is present (committing is exact because a leftover `.`
can satisfy neither `[+\-]` nor `$`). -/
def vmPatch : Str → Str
  | '.' :: r5 => if (r5.takeWhile pyIsDigit).isEmpty then '.' :: r5 else r5.dropWhile pyIsDigit
  | r3 => r3

/-- The version pattern after `v?\d+\.\d+`. -/
def vmAfterMinor (r3 : Str) : Bool := vmSuffix (vmPatch r3)

/-- The version pattern after `v?\d+`: requires `\.\d+`. -/
def vmAfterMajor : Str → Bool
  | '.' :: r2 =>
    if (r2.takeWhile pyIsDigit).isEmpty then false else vmAfterMinor (r2.dropWhile pyIsDigit)
  | _ => false

/-- The version pattern after `v?`: requires `\d+`. -/
def vmAfterV (s0 : Str) : Bool :=
  if (s0.takeWhile pyIsDigit).isEmpty then false else vmAfterMajor (s0.dropWhile pyIsDigit)

/-- `re.match(VERSION_PATTERN, s)` as a Boolean: the version-tag
recognizer (`isVersionTag` of the spec). -/
def versionMatch (s : Str) : Bool := vmAfterV (vStrip s)

/-! ### The conventional-commit grammar `^(\w+)(?:\(([^)]+)\))?: (.+)$` -/

/-- Matcher for the `(.+)$` description group. -/
def descOf (r : Str) : Option Str :=
  let core := if r.getLast? == some '\n' then r.dropLast else r
  if !core.isEmpty && core.all (fun c => c != '\n') then some core else none

/-- The conventional-commit pattern after the `(\w+)` group `w`: either a
parenthesised scope then `': '` then the description, or directly `': '`
then the description.  (When the optional scope group fails, the
backtracking fallback needs `:` where `(` stands, so it also fails.) -/
def convAfterType (w : Str) : Str → Option (Str × Option Str × Str)
  | '(' :: r2 =>
    let sc := r2.takeWhile (fun c => c != ')')
    if sc.isEmpty then none
    else
      match r2.dropWhile (fun c => c != ')') with
      | ')' :: ':' :: ' ' :: r4 => (descOf r4).map (fun d => (w, some sc, d))
      | _ => none
  | ':' :: ' ' :: r4 => (descOf r4).map (fun d => (w, none, d))
  | _ => none

/-- `re.match(r'^(\w+)(?:\(([^)]+)\))?: (.+)$', s)`, returning
(group 1, group 2, group 3).  Group 2 carries no parentheses, exactly as
in the source. -/
def convMatch (s : Str) : Option (Str × Option Str × Str) :=
  if (s.takeWhile isWordChar).isEmpty then none
  else convAfterType (s.takeWhile isWordChar) (s.dropWhile isWordChar)

/-- A parsed commit record: `{'type': ..., 'scope': ..., 'description': ...}`. -/
structure Commit where
  type : Str
  scope : Option Str
  description : Str
deriving DecidableEq

/-- `parse_commit` from the source: version tags are discarded (`None`),
conventional commits are parsed with the type lower-cased, and anything
else becomes an `other` record carrying the whole subject. -/
def parse_commit (message : Str) : Option Commit :=
  if versionMatch message then none
  else
    match convMatch message with
    | some (t, sc, d) => some ⟨t.map Char.toLower, sc, d⟩
    | none => some ⟨"other".toList, none, message⟩

/-! ### The category table and the categorizer -/

/-- The `CATEGORIES` table of the source: key, display label, rank. -/
def CATEGORIES : List (Str × Str × Nat) :=
  [("feat".toList, "✨ Features".toList, 1),
   ("fix".toList, "🐛 Bug Fixes".toList, 2),
   ("perf".toList, "⚡ Performance".toList, 3),
   ("chore".toList, "🔧 Chores".toList, 4),
   ("docs".toList, "📚 Documentation".toList, 5),
   ("refactor".toList, "♻️ Refactors".toList, 6),
   ("test".toList, "🧪 Tests".toList, 7),
   ("other".toList, "📝 Other".toList, 99)]

/-- Python `CATEGORIES.get(k, dflt)`. -/
def pyGet (d : List (Str × Str × Nat)) (k : Str) (dflt : Str × Nat) : Str × Nat :=
  match d.find? (fun p => decide (p.1 = k)) with
  | some p => p.2
  | none => dflt

/-- Python `k in CATEGORIES`. -/
def keyMem (k : Str) (d : List (Str × Str × Nat)) : Bool :=
  d.any (fun p => decide (p.1 = k))

/-- `_strip_emoji_prefix`: `re.sub(r'^\s*[^\w\s]+\s*', '', text)`.  The
three runs use pairwise disjoint character classes, so the greedy match is
the maximal-run decomposition; when the mandatory middle run is empty the
anchored pattern fails to match and the text is returned unchanged. -/
def strip_emoji_prefix (text : Str) : Str :=
  let afterSpace := text.dropWhile pyIsSpace
  if (afterSpace.takeWhile (fun c => !isWordChar c && !pyIsSpace c)).isEmpty then text
  else (afterSpace.dropWhile (fun c => !isWordChar c && !pyIsSpace c)).dropWhile pyIsSpace

/-- `get_category_title` from the source. -/
def get_category_title (cat_type : Str) (emoji : Bool) : Str :=
  let title := (pyGet CATEGORIES cat_type ("📝 Other".toList, 99)).1
  if emoji then title else strip_emoji_prefix title

/-- The bucket a parsed record is filed under:
`parsed['type'] if parsed['type'] in CATEGORIES else 'other'`. -/
def bucketOf (t : Str) : Str := if keyMem t CATEGORIES then t else "other".toList

/-- `categorized.setdefault-like` update of `categorize_commits`: ensure
the key (new keys go to the end, as in an insertion-ordered dict) and
append the record to its list. -/
def dictAppend : List (Str × List Commit) → Str → Commit → List (Str × List Commit)
  | [], k, v => [(k, [v])]
  | (a, vs) :: rest, k, v =>
    if a = k then (a, vs ++ [v]) :: rest else (a, vs) :: dictAppend rest k v

/-- One loop iteration of `categorize_commits`. -/
def categorize_step (categorized : List (Str × List Commit)) (msg : Str) :
    List (Str × List Commit) :=
  match parse_commit msg with
  | none => categorized
  | some parsed => dictAppend categorized (bucketOf parsed.type) parsed

/-- `categorize_commits` from the source. -/
def categorize_commits (commits : List Str) : List (Str × List Commit) :=
  commits.foldl categorize_step []

/-- Dict lookup with default `[]`, for stating properties of the report. -/
def lookupD (d : List (Str × List Commit)) (k : Str) : List Commit :=
  match d.find? (fun p => decide (p.1 = k)) with
  | some p => p.2
  | none => []

/-! ### The renderer `format_output` -/

/-- The sort key `CATEGORIES.get(x[0], ('', 99))[1]` of `format_output`. -/
def rankOf (k : Str) : Nat := (pyGet CATEGORIES k ([], 99)).2

/-- One record line: `f"  - {scope}{description}"` with
`scope = f"{c['scope']}: " if c['scope'] else ""`. -/
def format_record_line (c : Commit) : Str :=
  "  - ".toList ++
    (match c.scope with
     | some s => if s.isEmpty then [] else s ++ ": ".toList
     | none => []) ++ c.description

/-- One category heading line of `format_output`. -/
def category_heading (fmt : Str) (cat_type : Str) (emoji : Bool) : Str :=
  (if fmt = "md".toList then "### ".toList else []) ++ get_category_title cat_type emoji ++ [':']

/-- The lines a single category contributes to the output (empty
categories are skipped by the `if not commits: continue` guard). -/
def category_block (fmt : Str) (emoji : Bool) (p : Str × List Commit) : List Str :=
  if p.2.isEmpty then []
  else category_heading fmt p.1 emoji :: (p.2.map format_record_line ++ [[]])

/-- `sorted(categorized.items(), key=rank)`: a stable sort by rank
(insertion sort is stable, as is Python's sort; on rank-distinct inputs
all correct sorts agree). -/
def sorted_cats (categorized : List (Str × List Commit)) : List (Str × List Commit) :=
  List.insertionSort (fun a b => rankOf a.1 ≤ rankOf b.1) categorized

/-- The header line `f"{'## ' if fmt == 'md' else ''}Changelog: {from_v} → {to_v}\n"`. -/
def format_header (from_v to_v fmt : Str) : Str :=
  (if fmt = "md".toList then "## ".toList else []) ++ "Changelog: ".toList ++ from_v ++
    " → ".toList ++ to_v ++ ['\n']

/-- Python `'\n'.join`. -/
def joinNL (ls : List Str) : Str := (ls.intersperse ['\n']).flatten

/-- `format_output` from the source. -/
def format_output (from_v to_v : Str) (categorized : List (Str × List Commit))
    (fmt : Str) (emoji : Bool) : Str :=
  joinNL (format_header from_v to_v fmt ::
    (sorted_cats categorized).flatMap (category_block fmt emoji))

/-! ### The diff reporter `format_diff_with_separators` -/

/-- The separator rule `'-' * 72`. -/
def sep_line : Str := List.replicate 72 '-'

/-- The file-header marker `'diff --git '`. -/
def diffMarker : Str := "diff --git ".toList

/-- `clean_line.startswith('diff --git ')` where `clean_line` is the
ANSI-stripped view of the line. -/
def isDiffHeader (line : Str) : Bool := decide (diffMarker <+: stripAnsi line)

/-- The derived file label: empty when the header splits into fewer than
four whitespace tokens, otherwise `a-path -> b-path` (or the single path
when they agree), with `a/` and `b/` prefixes removed. -/
def file_label (clean : Str) : Str :=
  let parts := pySplit clean
  if 4 ≤ parts.length then
    let p2 := parts.getD 2 []
    let p3 := parts.getD 3 []
    let a_path := if decide ("a/".toList <+: p2) then p2.drop 2 else p2
    let b_path := if decide ("b/".toList <+: p3) then p3.drop 2 else p3
    if a_path = b_path then a_path else a_path ++ " -> ".toList ++ b_path
  else []

/-- One loop iteration of `format_diff_with_separators`. -/
def format_diff_step (formatted : List Str) (line : Str) : List Str :=
  if isDiffHeader line then
    let fl := file_label (stripAnsi line)
    let f1 := if formatted.isEmpty then formatted else formatted ++ [sep_line]
    let f2 := f1 ++ [sep_line]
    let f3 := if fl.isEmpty then f2 else f2 ++ ["File: ".toList ++ fl]
    f3 ++ [sep_line, line]
  else formatted ++ [line]

/-- `format_diff_with_separators`, at the level of its line list (the
source splits the raw text into lines first and joins with newlines
last). -/
def format_diff_lines (lines : List Str) : List Str :=
  lines.foldl format_diff_step []

/-- The output block contributed by one input line: `first` says whether
nothing has been emitted yet (`if formatted:` false). -/
def line_block (line : Str) (first : Bool) : List Str :=
  if isDiffHeader line then
    (if first then [] else [sep_line]) ++ [sep_line] ++
      (if (file_label (stripAnsi line)).isEmpty then []
       else ["File: ".toList ++ file_label (stripAnsi line)]) ++
      [sep_line, line]
  else [line]

/-! ### Range extraction: `find_commit_for_version` and `get_commits_between` -/

/-- One line of `git log --all --pretty=format:'%H %s'`: hash, a space,
subject. -/
def logLine (p : Str × Str) : Str := p.1 ++ ' ' :: p.2

/-- `find_commit_for_version`: first log line containing the version as a
substring; its first whitespace token is returned. -/
def find_commit_for_version (version : Str) (log : List Str) : Option Str :=
  match log.find? (fun line => pyContains version line) with
  | some line => some ((pySplit line).headD [])
  | none => none

/-- Python truthiness of `from_hash` / `to_hash` (`None` and `''` are falsy). -/
def pyTruthy : Option Str → Bool
  | none => false
  | some s => !s.isEmpty

/-- `get_commits_between`: resolve both versions against the hash-subject
log; on failure print to stderr and `sys.exit(1)` (modelled as
`Except.error` carrying the message, so no changelog output exists);
otherwise return the stripped non-empty subjects of the range log. -/
def get_commits_between (from_version to_version : Str) (log : List Str)
    (rangeLog : List Str) : Except Str (List Str) :=
  if pyTruthy (find_commit_for_version from_version log) &&
      pyTruthy (find_commit_for_version to_version log) then
    Except.ok ((rangeLog.map pyStrip).filter (fun l => !l.isEmpty))
  else
    Except.error "Could not find commits for versions".toList

/-- Commit identifiers are lowercase hexadecimal, cf. the source's
`COMMIT_PATTERN = r'\[([a-f0-9]+)\] ...'` and git's `%H`. -/
def hexChar (c : Char) : Bool := c.isDigit || (decide ('a' ≤ c) && decide (c ≤ 'f'))

/-! ### Spec-side definitions (for the refinement claims) -/

/-- Modelled from the spec: the heading-stripping rule of §4.2, "remove
any leading run of non-word, non-space characters plus trailing
whitespace from the label". -/
def specStrip (label : Str) : Str :=
  (label.dropWhile (fun c => !isWordChar c && !pyIsSpace c)).dropWhile pyIsSpace

/-- Modelled from the spec: the version-identifier grammar of §6,
`^v?\d+\.\d+(\.\d+)?([+\-].+)?$`, as a structural decomposition. -/
def SpecVersionGrammar (s : Str) : Prop :=
  ∃ vp d1 d2 patch suffix : Str,
    (vp = [] ∨ vp = ['v']) ∧
    d1 ≠ [] ∧ (∀ c ∈ d1, pyIsDigit c = true) ∧
    d2 ≠ [] ∧ (∀ c ∈ d2, pyIsDigit c = true) ∧
    (patch = [] ∨ ∃ p, patch = '.' :: p ∧ p ≠ [] ∧ ∀ c ∈ p, pyIsDigit c = true) ∧
    (suffix = [] ∨ ∃ c r, suffix = c :: r ∧ (c = '+' ∨ c = '-') ∧ r ≠ [] ∧ ∀ x ∈ r, x ≠ '\n') ∧
    s = vp ++ d1 ++ '.' :: d2 ++ patch ++ suffix

/-! ## Helper lemmas -/

theorem takeWhile_append_of_all {p : Char → Bool} {a : Str} (b : Str)
    (h : ∀ c ∈ a, p c = true) : (a ++ b).takeWhile p = a ++ b.takeWhile p := by
  induction a with
  | nil => rfl
  | cons c a ih =>
    simp only [List.cons_append, List.takeWhile_cons, h c (by simp), if_true]
    rw [ih fun x hx => h x (by simp [hx])]

theorem dropWhile_append_of_all {p : Char → Bool} {a : Str} (b : Str)
    (h : ∀ c ∈ a, p c = true) : (a ++ b).dropWhile p = b.dropWhile p := by
  induction a with
  | nil => rfl
  | cons c a ih =>
    simp only [List.cons_append, List.dropWhile_cons, h c (by simp), if_true]
    exact ih fun x hx => h x (by simp [hx])

theorem takeWhile_cons_of_neg {p : Char → Bool} {c : Char} (l : Str) (h : p c = false) :
    (c :: l).takeWhile p = [] := by
  simp [List.takeWhile_cons, h]

theorem dropWhile_cons_of_neg {p : Char → Bool} {c : Char} (l : Str) (h : p c = false) :
    (c :: l).dropWhile p = c :: l := by
  simp [List.dropWhile_cons, h]

theorem pyContains_iff (n : Str) : ∀ h : Str,
    (pyContains n h = true ↔ ∃ pre post, h = pre ++ n ++ post)
  | [] => by
    simp only [pyContains, List.isEmpty_iff]
    constructor
    · intro hc
      exact ⟨[], [], by simp [hc]⟩
    · rintro ⟨pre, post, hpp⟩
      exact (List.append_eq_nil.mp (List.append_eq_nil.mp hpp.symm).1).2
  | c :: rest => by
    simp only [pyContains, Bool.or_eq_true, decide_eq_true_eq]
    constructor
    · intro hc
      rcases hc with hpre | hrest
      · obtain ⟨t, ht⟩ := hpre
        exact ⟨[], t, by simp [← ht]⟩
      · obtain ⟨pre, post, hpp⟩ := (pyContains_iff n rest).mp hrest
        exact ⟨c :: pre, post, by simp [hpp]⟩
    · rintro ⟨pre, post, hpp⟩
      cases pre with
      | nil =>
        left
        exact ⟨post, by simpa using hpp.symm⟩
      | cons c2 pre2 =>
        right
        simp only [List.cons_append] at hpp
        exact (pyContains_iff n rest).mpr ⟨pre2, post, ((List.cons.injEq _ _ _ _).mp hpp).2⟩

theorem digit_ne_space {c : Char} (h : pyIsDigit c = true) : c ≠ ' ' := by
  intro he; rw [he] at h; exact absurd h (by decide)

theorem vStrip_cases (v : Str) : v = 'v' :: vStrip v ∨ vStrip v = v := by
  unfold vStrip
  split
  · next r => left; rfl
  · right; rfl

theorem vmAfterMajor_ne_dot {c : Char} (r2 : Str) (hc : c ≠ '.') :
    vmAfterMajor (c :: r2) = false := by
  unfold vmAfterMajor
  split
  · next heq => exact absurd (List.cons.injEq _ _ _ _ |>.mp heq).1 hc
  · rfl

theorem vmAfterV_dest {s0 : Str} (h : vmAfterV s0 = true) :
    s0.takeWhile pyIsDigit ≠ [] ∧ vmAfterMajor (s0.dropWhile pyIsDigit) = true := by
  unfold vmAfterV at h
  by_cases he : (s0.takeWhile pyIsDigit).isEmpty = true
  · rw [if_pos he] at h; exact absurd h (by simp)
  · rw [if_neg he] at h
    exact ⟨fun hnil => he (by simp [hnil]), h⟩

theorem vmAfterMajor_dest {r : Str} (h : vmAfterMajor r = true) : ∃ r2, r = '.' :: r2 := by
  cases r with
  | nil => exact absurd h (by decide)
  | cons c r2 =>
    by_cases hc : c = '.'
    · exact ⟨r2, by rw [hc]⟩
    · rw [vmAfterMajor_ne_dot r2 hc] at h; exact absurd h (by simp)

/-- A version tag decomposes as `p ++ '.' :: q` with no space in `p`:
the dot required by `\d+\.\d+` precedes any space the tag may contain. -/
theorem versionMatch_dest {v : Str} (hv : versionMatch v = true) :
    ∃ p q, v = p ++ '.' :: q ∧ ∀ c ∈ p, c ≠ ' ' := by
  unfold versionMatch at hv
  obtain ⟨hd1, hmaj⟩ := vmAfterV_dest hv
  obtain ⟨r2, hr2⟩ := vmAfterMajor_dest hmaj
  have hsplit : vStrip v = (vStrip v).takeWhile pyIsDigit ++ '.' :: r2 := by
    conv_lhs => rw [← List.takeWhile_append_dropWhile (p := pyIsDigit) (l := vStrip v)]
    rw [hr2]
  have hdig : ∀ c ∈ (vStrip v).takeWhile pyIsDigit, c ≠ ' ' :=
    fun c hc => digit_ne_space (List.mem_takeWhile_imp hc)
  obtain ⟨d1, hd1eq, hd1sp⟩ :
      ∃ d1, vStrip v = d1 ++ '.' :: r2 ∧ ∀ c ∈ d1, c ≠ ' ' :=
    ⟨(vStrip v).takeWhile pyIsDigit, hsplit, hdig⟩
  rcases vStrip_cases v with hcase | hcase
  · refine ⟨'v' :: d1, r2, ?_, ?_⟩
    · rw [hcase, hd1eq]; rfl
    · intro c hc
      rcases List.mem_cons.mp hc with rfl | hc2
      · decide
      · exact hd1sp c hc2
  · refine ⟨d1, r2, ?_, hd1sp⟩
    rw [← hcase]
    exact hd1eq

/-- A string of the form `p ++ '.' :: q` with no space in `p` is never a
prefix of `hash ++ ' ' :: subject` when the hash is hexadecimal. -/
theorem dotted_not_prefix (q s : Str) (p : Str) : ∀ h : Str,
    (∀ c ∈ p, c ≠ ' ') → (∀ c ∈ h, hexChar c = true) →
    ¬ ((p ++ '.' :: q) <+: h ++ ' ' :: s) := by
  induction p with
  | nil =>
    intro h hp hh hpre
    obtain ⟨t, ht⟩ := hpre
    cases h with
    | nil =>
      simp only [List.nil_append, List.cons_append] at ht
      exact absurd ((List.cons.injEq _ _ _ _).mp ht).1 (by decide)
    | cons a h2 =>
      simp only [List.nil_append, List.cons_append] at ht
      have ha : '.' = a := ((List.cons.injEq _ _ _ _).mp ht).1
      have := hh a (by simp)
      rw [← ha] at this
      exact absurd this (by decide)
  | cons a p2 ih =>
    intro h hp hh hpre
    obtain ⟨t, ht⟩ := hpre
    cases h with
    | nil =>
      simp only [List.cons_append, List.nil_append] at ht
      exact hp a (by simp) ((List.cons.injEq _ _ _ _).mp ht).1
    | cons b h2 =>
      simp only [List.cons_append] at ht
      obtain ⟨hab, htail⟩ := (List.cons.injEq _ _ _ _).mp ht
      exact ih h2 (fun c hc => hp c (by simp [hc])) (fun c hc => hh c (by simp [hc]))
        ⟨t, by simpa using htail⟩

/-- For a grammar-valid version tag, containment in a `hash subject` log
line is containment in the subject. -/
theorem pyContains_hash_line {v : Str} (hv : versionMatch v = true) (s : Str) :
    ∀ h : Str, (∀ c ∈ h, hexChar c = true) →
    pyContains v (h ++ ' ' :: s) = pyContains v s := by
  obtain ⟨p, q, hpq, hp⟩ := versionMatch_dest hv
  intro h
  induction h with
  | nil =>
    intro _
    have hnp : ¬ (v <+: ' ' :: s) := by
      rw [hpq]
      have := dotted_not_prefix q s p [] hp (by simp)
      simpa using this
    show (decide (v <+: ' ' :: s) || pyContains v s) = pyContains v s
    simp [hnp]
  | cons a h2 ih =>
    intro hh
    have hnp : ¬ (v <+: a :: (h2 ++ ' ' :: s)) := by
      rw [hpq]
      have := dotted_not_prefix q s p (a :: h2) hp hh
      simpa using this
    show (decide (v <+: a :: (h2 ++ ' ' :: s)) || pyContains v (h2 ++ ' ' :: s)) = pyContains v s
    rw [ih fun c hc => hh c (by simp [hc])]
    simp [hnp]

theorem hexChar_not_space {c : Char} (h : hexChar c = true) : pyIsSpace c = false := by
  cases hsp : pyIsSpace c with
  | false => rfl
  | true =>
    have h6 : ((((c = ' ' ∨ c = '\t') ∨ c = '\n') ∨ c = '\x0d') ∨ c = '\x0b') ∨ c = '\x0c' := by
      simpa [pyIsSpace] using hsp
    rcases h6 with ((((rfl | rfl) | rfl) | rfl) | rfl) | rfl <;> exact absurd h (by decide)

theorem pySplitAux_flush (s : Str) : ∀ (h acc : Str),
    (∀ c ∈ h, pyIsSpace c = false) → (acc = [] → h ≠ []) →
    pySplitAux acc (h ++ ' ' :: s) = (acc.reverse ++ h) :: pySplitAux [] s := by
  intro h
  induction h generalizing s with
  | nil =>
    intro acc hns hne
    have hacc : acc.isEmpty = false := by
      cases acc with
      | nil => exact absurd rfl (hne rfl)
      | cons a l => rfl
    show pySplitAux acc (' ' :: s) = (acc.reverse ++ []) :: pySplitAux [] s
    simp [pySplitAux, pyIsSpace, hacc]
  | cons c h2 ih =>
    intro acc hns _
    have hc : pyIsSpace c = false := hns c (by simp)
    show pySplitAux acc (c :: (h2 ++ ' ' :: s)) = (acc.reverse ++ c :: h2) :: pySplitAux [] s
    rw [show pySplitAux acc (c :: (h2 ++ ' ' :: s)) = pySplitAux (c :: acc) (h2 ++ ' ' :: s) by
      simp [pySplitAux, hc]]
    rw [ih s (c :: acc) (fun x hx => hns x (by simp [hx])) (by simp)]
    simp

/-- On a wellformed `hash subject` line, `find_commit_for_version` splits
off exactly the hash. -/
theorem pySplit_logLine {h : Str} (s : Str) (hne : h ≠ [])
    (hns : ∀ c ∈ h, pyIsSpace c = false) :
    pySplit (h ++ ' ' :: s) = h :: pySplit s := by
  unfold pySplit
  rw [pySplitAux_flush s h [] hns (fun _ => hne)]
  simp

/-- `find_commit_for_version` over a wellformed hash-subject stream is the
hash of the first pair whose subject contains the (grammar-valid) tag. -/
theorem find_commit_eq {v : Str} (hv : versionMatch v = true) :
    ∀ pairs : List (Str × Str),
    (∀ p ∈ pairs, p.1 ≠ [] ∧ ∀ c ∈ p.1, hexChar c = true) →
    find_commit_for_version v (pairs.map logLine) =
      (pairs.find? (fun p => pyContains v p.2)).map Prod.fst := by
  intro pairs
  induction pairs with
  | nil => intro _; rfl
  | cons p ps ih =>
    intro hwf
    obtain ⟨hne, hhex⟩ := hwf p (by simp)
    have hcont : pyContains v (logLine p) = pyContains v p.2 :=
      pyContains_hash_line hv p.2 p.1 hhex
    unfold find_commit_for_version at ih ⊢
    cases hc : pyContains v p.2 with
    | true =>
      have h1 : List.find? (fun line => pyContains v line) (logLine p :: List.map logLine ps) =
          some (logLine p) := List.find?_cons_of_pos _ (by rw [hcont]; exact hc)
      have h2 : List.find? (fun q => pyContains v q.2) (p :: ps) = some p :=
        List.find?_cons_of_pos _ hc
      rw [List.map_cons, h1, h2]
      have h3 : pySplit (logLine p) = p.1 :: pySplit p.2 :=
        pySplit_logLine p.2 hne fun c hcmem => hexChar_not_space (hhex c hcmem)
      simp [h3]
    | false =>
      have h1 : List.find? (fun line => pyContains v line) (logLine p :: List.map logLine ps) =
          List.find? (fun line => pyContains v line) (List.map logLine ps) :=
        List.find?_cons_of_neg _ (by simp [hcont, hc])
      have h2 : List.find? (fun q => pyContains v q.2) (p :: ps) =
          List.find? (fun q => pyContains v q.2) ps :=
        List.find?_cons_of_neg _ (by simp [hc])
      rw [List.map_cons, h1, h2]
      exact ih fun q hq => hwf q (by simp [hq])

/-! ## Dictionary and categorizer lemmas -/

theorem lookupD_nil (k : Str) : lookupD [] k = [] := rfl

theorem lookupD_cons (a : Str) (vs : List Commit) (rest : List (Str × List Commit)) (k : Str) :
    lookupD ((a, vs) :: rest) k = if a = k then vs else lookupD rest k := by
  by_cases h : a = k
  · rw [if_pos h]
    unfold lookupD
    rw [List.find?_cons_of_pos _ (by simpa using h)]
  · rw [if_neg h]
    unfold lookupD
    rw [List.find?_cons_of_neg _ (by simpa using h)]

theorem lookupD_dictAppend (k : Str) (v : Commit) : ∀ (d : List (Str × List Commit)) (q : Str),
    lookupD (dictAppend d k v) q = lookupD d q ++ if q = k then [v] else [] := by
  intro d
  induction d with
  | nil =>
    intro q
    by_cases h : q = k
    · subst h
      rw [show dictAppend [] q v = [(q, [v])] from rfl, lookupD_cons]
      simp [lookupD_nil]
    · rw [show dictAppend [] k v = [(k, [v])] from rfl, lookupD_cons,
        if_neg (fun hh => h hh.symm), lookupD_nil, if_neg h]
      rfl
  | cons p rest ih =>
    obtain ⟨a, vs⟩ := p
    intro q
    by_cases hak : a = k
    · subst hak
      rw [show dictAppend ((a, vs) :: rest) a v = (a, vs ++ [v]) :: rest by simp [dictAppend],
        lookupD_cons, lookupD_cons]
      by_cases hq : a = q
      · subst hq
        simp
      · rw [if_neg hq, if_neg hq, if_neg (fun hh => hq hh.symm)]
        simp
    · rw [show dictAppend ((a, vs) :: rest) k v = (a, vs) :: dictAppend rest k v by
        simp [dictAppend, hak], lookupD_cons, lookupD_cons]
      by_cases hq : a = q
      · subst hq
        rw [if_pos rfl, if_pos rfl, if_neg hak]
        simp
      · rw [if_neg hq, if_neg hq, ih q]

theorem dictAppend_keys (k : Str) (v : Commit) : ∀ d : List (Str × List Commit),
    (dictAppend d k v).map Prod.fst =
      if k ∈ d.map Prod.fst then d.map Prod.fst else d.map Prod.fst ++ [k] := by
  intro d
  induction d with
  | nil => simp [dictAppend]
  | cons p rest ih =>
    obtain ⟨a, vs⟩ := p
    by_cases hak : a = k
    · subst hak
      simp [dictAppend]
    · rw [show dictAppend ((a, vs) :: rest) k v = (a, vs) :: dictAppend rest k v by
        simp [dictAppend, hak]]
      simp only [List.map_cons, ih]
      by_cases hk : k ∈ rest.map Prod.fst
      · rw [if_pos hk, if_pos (by simp [hk])]
      · rw [if_neg hk, if_neg (by simp [hk, Ne.symm hak])]
        simp

theorem bucketOf_keyMem (t : Str) : keyMem (bucketOf t) CATEGORIES = true := by
  unfold bucketOf
  split
  · assumption
  · decide

theorem dictAppend_wf (k : Str) (v : Commit) (hk : keyMem k CATEGORIES = true)
    (hv : k = bucketOf v.type) :
    ∀ d : List (Str × List Commit),
    (∀ p ∈ d, keyMem p.1 CATEGORIES = true ∧ p.2 ≠ [] ∧ ∀ r ∈ p.2, p.1 = bucketOf r.type) →
    ∀ p ∈ dictAppend d k v,
      keyMem p.1 CATEGORIES = true ∧ p.2 ≠ [] ∧ ∀ r ∈ p.2, p.1 = bucketOf r.type := by
  intro d
  induction d with
  | nil =>
    intro _ p hp
    simp only [dictAppend, List.mem_singleton] at hp
    subst hp
    exact ⟨hk, by simp, by simpa using hv⟩
  | cons q rest ih =>
    obtain ⟨a, vs⟩ := q
    intro hd p hp
    by_cases hak : a = k
    · subst hak
      rw [show dictAppend ((a, vs) :: rest) a v = (a, vs ++ [v]) :: rest by simp [dictAppend]] at hp
      rcases List.mem_cons.mp hp with rfl | hmem
      · obtain ⟨h1, h2, h3⟩ := hd (a, vs) (by simp)
        refine ⟨h1, by simp, ?_⟩
        intro r hr
        rcases List.mem_append.mp hr with hr1 | hr2
        · exact h3 r hr1
        · rw [List.mem_singleton.mp hr2]
          exact hv
      · exact hd p (by simp [hmem])
    · rw [show dictAppend ((a, vs) :: rest) k v = (a, vs) :: dictAppend rest k v by
        simp [dictAppend, hak]] at hp
      rcases List.mem_cons.mp hp with rfl | hmem
      · exact hd (a, vs) (by simp)
      · exact ih (fun q2 hq2 => hd q2 (by simp [hq2])) p hmem

theorem categorize_foldl_wf (cs : List Str) :
    ∀ d, (∀ p ∈ d, keyMem p.1 CATEGORIES = true ∧ p.2 ≠ [] ∧ ∀ r ∈ p.2, p.1 = bucketOf r.type) →
    ∀ p ∈ List.foldl categorize_step d cs,
      keyMem p.1 CATEGORIES = true ∧ p.2 ≠ [] ∧ ∀ r ∈ p.2, p.1 = bucketOf r.type := by
  induction cs with
  | nil => intro d hd; simpa using hd
  | cons c cs ih =>
    intro d hd
    rw [List.foldl_cons]
    apply ih
    unfold categorize_step
    cases hp : parse_commit c with
    | none => exact hd
    | some r => exact dictAppend_wf (bucketOf r.type) r (bucketOf_keyMem r.type) rfl d hd

/-- Every entry of a categorized report has a key in the fixed category
set, a nonempty record list, and a key that is the bucket of each of its
records. -/
theorem categorize_wf (cs : List Str) :
    ∀ p ∈ categorize_commits cs,
      keyMem p.1 CATEGORIES = true ∧ p.2 ≠ [] ∧ ∀ r ∈ p.2, p.1 = bucketOf r.type :=
  categorize_foldl_wf cs [] (by simp)

theorem categorize_foldl_lookup (k : Str) : ∀ (cs : List Str) (d : List (Str × List Commit)),
    lookupD (List.foldl categorize_step d cs) k =
      lookupD d k ++ (cs.filterMap parse_commit).filter (fun r => decide (bucketOf r.type = k)) := by
  intro cs
  induction cs with
  | nil => intro d; simp
  | cons c cs ih =>
    intro d
    rw [List.foldl_cons, ih]
    unfold categorize_step
    cases hp : parse_commit c with
    | none => simp [hp]
    | some r =>
      rw [lookupD_dictAppend]
      simp only [List.filterMap_cons, hp, List.filter_cons]
      by_cases hb : bucketOf r.type = k
      · rw [if_pos hb.symm, if_pos (by simpa using hb)]
        simp
      · rw [if_neg (fun hh => hb hh.symm), if_neg (by simpa using hb)]
        simp

/-- The record list of each category is the order-preserving filter of the
parsed stream. -/
theorem categorize_lookup (cs : List Str) (k : Str) :
    lookupD (categorize_commits cs) k =
      (cs.filterMap parse_commit).filter (fun r => decide (bucketOf r.type = k)) := by
  have := categorize_foldl_lookup k cs []
  simpa [lookupD_nil] using this

theorem categorize_foldl_keys (cs : List Str) : ∀ d,
    (d.map Prod.fst).Nodup → ((List.foldl categorize_step d cs).map Prod.fst).Nodup := by
  induction cs with
  | nil => intro d hd; simpa using hd
  | cons c cs ih =>
    intro d hd
    rw [List.foldl_cons]
    apply ih
    unfold categorize_step
    cases hp : parse_commit c with
    | none => exact hd
    | some r =>
      rw [dictAppend_keys]
      split
      · exact hd
      · next hmem =>
        rw [List.nodup_append]
        exact ⟨hd, List.nodup_singleton _, by simpa [List.disjoint_singleton] using hmem⟩

theorem categorize_keys_nodup (cs : List Str) :
    ((categorize_commits cs).map Prod.fst).Nodup :=
  categorize_foldl_keys cs [] (by simp)

/-! ## Rank and sorting lemmas -/

theorem keyMem_elim {k : Str} (h : keyMem k CATEGORIES = true) :
    k = "feat".toList ∨ k = "fix".toList ∨ k = "perf".toList ∨ k = "chore".toList ∨
    k = "docs".toList ∨ k = "refactor".toList ∨ k = "test".toList ∨ k = "other".toList := by
  simp only [keyMem, CATEGORIES, List.any_cons, List.any_nil, Bool.or_eq_true,
    decide_eq_true_eq, Bool.or_eq_false_iff, eq_comm] at h
  simpa using h

theorem rank_inj {k1 k2 : Str} (h1 : keyMem k1 CATEGORIES = true)
    (h2 : keyMem k2 CATEGORIES = true) (hne : k1 ≠ k2) : rankOf k1 ≠ rankOf k2 := by
  rcases keyMem_elim h1 with rfl | rfl | rfl | rfl | rfl | rfl | rfl | rfl <;>
    rcases keyMem_elim h2 with rfl | rfl | rfl | rfl | rfl | rfl | rfl | rfl <;>
    first
      | exact absurd rfl hne
      | decide

theorem sorted_cats_perm (d : List (Str × List Commit)) : List.Perm (sorted_cats d) d :=
  List.perm_insertionSort _ d

theorem sorted_cats_sorted (d : List (Str × List Commit)) :
    (sorted_cats d).Pairwise (fun a b => rankOf a.1 ≤ rankOf b.1) := by
  haveI : IsTotal (Str × List Commit) (fun a b => rankOf a.1 ≤ rankOf b.1) :=
    ⟨fun a b => Nat.le_total _ _⟩
  haveI : IsTrans (Str × List Commit) (fun a b => rankOf a.1 ≤ rankOf b.1) :=
    ⟨fun _ _ _ hab hbc => Nat.le_trans hab hbc⟩
  exact List.sorted_insertionSort _ d

/-- The ranks of the sorted categorized report are strictly increasing. -/
theorem sorted_cats_ranks_lt (cs : List Str) :
    ((sorted_cats (categorize_commits cs)).map (fun p => rankOf p.1)).Pairwise (· < ·) := by
  have hperm := sorted_cats_perm (categorize_commits cs)
  have hsorted := sorted_cats_sorted (categorize_commits cs)
  have hkeys2 : ((sorted_cats (categorize_commits cs)).map Prod.fst).Nodup :=
    ((hperm.map Prod.fst).nodup_iff).mpr (categorize_keys_nodup cs)
  have hne : (sorted_cats (categorize_commits cs)).Pairwise (fun a b => a.1 ≠ b.1) :=
    List.pairwise_map.mp hkeys2
  have hmem : ∀ p ∈ sorted_cats (categorize_commits cs), keyMem p.1 CATEGORIES = true :=
    fun p hp => (categorize_wf cs p (hperm.mem_iff.mp hp)).1
  rw [List.pairwise_map]
  refine (hsorted.and hne).imp_of_mem ?_
  intro a b ha hb hab
  exact Nat.lt_of_le_of_ne hab.1 (rank_inj (hmem a ha) (hmem b hb) hab.2)

/-! ## Diff reporter lemmas -/

theorem line_block_ne_nil (line : Str) (first : Bool) : line_block line first ≠ [] := by
  unfold line_block
  by_cases h : isDiffHeader line = true <;> simp [h]

theorem format_diff_step_eq (formatted : List Str) (line : Str) :
    format_diff_step formatted line = formatted ++ line_block line formatted.isEmpty := by
  by_cases h : isDiffHeader line = true
  · rcases formatted with _ | ⟨f, fs⟩ <;>
      by_cases h2 : (file_label (stripAnsi line)).isEmpty = true <;>
      simp [format_diff_step, line_block, h, h2, List.append_assoc]
  · simp [format_diff_step, line_block, h]

theorem format_diff_foldl (ls : List Str) : ∀ acc : List Str, acc ≠ [] →
    List.foldl format_diff_step acc ls = acc ++ ls.flatMap (fun l => line_block l false) := by
  induction ls with
  | nil => intro acc _; simp
  | cons l ls ih =>
    intro acc hacc
    rw [List.foldl_cons, format_diff_step_eq]
    have hae : acc.isEmpty = false := by
      cases acc
      · exact absurd rfl hacc
      · rfl
    rw [hae, ih (acc ++ line_block l false)
      (fun hn => hacc (List.append_eq_nil.mp hn).1)]
    simp [List.append_assoc]

theorem format_diff_lines_cons (l : Str) (ls : List Str) :
    format_diff_lines (l :: ls) =
      line_block l true ++ ls.flatMap (fun x => line_block x false) := by
  unfold format_diff_lines
  rw [List.foldl_cons, format_diff_step_eq]
  simp only [List.nil_append, List.isEmpty_nil]
  exact format_diff_foldl ls (line_block l true) (line_block_ne_nil l true)

theorem file_label_short {clean : Str} (h : (pySplit clean).length < 4) :
    file_label clean = [] := by
  unfold file_label
  rw [if_neg (by omega)]

/-! ## Conventional-commit versus version-grammar lemmas -/

theorem wordChar_ne_dot {c : Char} (h : isWordChar c = true) : c ≠ '.' := by
  intro he; rw [he] at h; exact absurd h (by decide)

theorem digit_ne_v {c : Char} (h : pyIsDigit c = true) : c ≠ 'v' := by
  intro he; rw [he] at h; exact absurd h (by decide)

theorem vStrip_ne_v {c : Char} (r : Str) (h : c ≠ 'v') : vStrip (c :: r) = c :: r := by
  unfold vStrip
  split
  · next heq => exact absurd ((List.cons.injEq _ _ _ _).mp heq).1 h
  · rfl

theorem vmAfterMajor_head_not_dot {l : Str} (h : l.head? ≠ some '.') :
    vmAfterMajor l = false := by
  cases l with
  | nil => rfl
  | cons c r => exact vmAfterMajor_ne_dot r (fun he => h (by simp [he]))

theorem dropWhile_append_cases (p : Char → Bool) (b : Str) : ∀ a : Str,
    (a ++ b).dropWhile p =
      if (a.dropWhile p).isEmpty then b.dropWhile p else a.dropWhile p ++ b := by
  intro a
  induction a with
  | nil => simp
  | cons c a ih =>
    by_cases hc : p c = true
    · simp [List.dropWhile_cons, hc, ih]
    · simp [List.dropWhile_cons, hc]

theorem vmAfterV_word_colon {u r1 : Str} (hu : ∀ c ∈ u, isWordChar c = true)
    (hr : r1.head? = some '(' ∨ r1.head? = some ':') : vmAfterV (u ++ r1) = false := by
  have hr1drop : r1.dropWhile pyIsDigit = r1 := by
    cases r1 with
    | nil => rfl
    | cons c r =>
      rcases hr with hr | hr <;>
        · have : c = _ := (Option.some.injEq _ _).mp (by simpa using hr)
          subst this
          exact dropWhile_cons_of_neg _ (by decide)
  have hr1head : r1.head? ≠ some '.' := by
    rcases hr with hr | hr <;> simp [hr]
  unfold vmAfterV
  by_cases hd : ((u ++ r1).takeWhile pyIsDigit).isEmpty = true
  · rw [if_pos hd]
  · rw [if_neg hd, dropWhile_append_cases]
    by_cases hu2 : (u.dropWhile pyIsDigit).isEmpty = true
    · rw [if_pos hu2, hr1drop]
      exact vmAfterMajor_head_not_dot hr1head
    · rw [if_neg hu2]
      apply vmAfterMajor_head_not_dot
      obtain ⟨c, w, hcw⟩ : ∃ c w, u.dropWhile pyIsDigit = c :: w := by
        cases hcw : u.dropWhile pyIsDigit
        · exact absurd (by simp [hcw]) hu2
        · exact ⟨_, _, rfl⟩
      have hcmem : c ∈ u :=
        (List.dropWhile_sublist pyIsDigit).subset (hcw ▸ List.mem_cons_self c w)
      rw [hcw]
      simp [wordChar_ne_dot (hu c hcmem)]

theorem convAfterType_head {w r1 : Str} {out : Str × Option Str × Str}
    (h : convAfterType w r1 = some out) :
    r1.head? = some '(' ∨ r1.head? = some ':' := by
  unfold convAfterType at h
  split at h
  · next r2 => left; rfl
  · next r4 => right; rfl
  · exact absurd h (by simp)

theorem convMatch_dest {s : Str} {out : Str × Option Str × Str}
    (h : convMatch s = some out) :
    s.takeWhile isWordChar ≠ [] ∧
      ((s.dropWhile isWordChar).head? = some '(' ∨
        (s.dropWhile isWordChar).head? = some ':') := by
  unfold convMatch at h
  by_cases he : ((s.takeWhile isWordChar)).isEmpty = true
  · rw [if_pos he] at h
    exact absurd h (by simp)
  · rw [if_neg he] at h
    exact ⟨fun hnil => he (by simp [hnil]), convAfterType_head h⟩

/-- A conventional-commit-shaped subject is never a version tag. -/
theorem versionMatch_of_conv {s : Str} {out : Str × Option Str × Str}
    (h : convMatch s = some out) : versionMatch s = false := by
  obtain ⟨hw, hr⟩ := convMatch_dest h
  obtain ⟨u, r1, hs, hall, hune, hr⟩ :
      ∃ u r1, s = u ++ r1 ∧ (∀ c ∈ u, isWordChar c = true) ∧ u ≠ [] ∧
        (r1.head? = some '(' ∨ r1.head? = some ':') :=
    ⟨s.takeWhile isWordChar, s.dropWhile isWordChar,
      (List.takeWhile_append_dropWhile isWordChar s).symm,
      fun c hc => List.mem_takeWhile_imp hc, hw, hr⟩
  obtain ⟨c, w, rfl⟩ : ∃ c w, u = c :: w := by
    cases u
    · exact absurd rfl hune
    · exact ⟨_, _, rfl⟩
  unfold versionMatch
  by_cases hv : c = 'v'
  · subst hv
    have h2 : vStrip s = w ++ r1 := by
      rw [hs]
      rfl
    rw [h2]
    exact vmAfterV_word_colon (fun x hx => hall x (by simp [hx])) hr
  · have h2 : vStrip s = (c :: w) ++ r1 := by
      rw [hs]
      show vStrip (c :: (w ++ r1)) = c :: (w ++ r1)
      exact vStrip_ne_v _ hv
    rw [h2]
    exact vmAfterV_word_colon hall hr

theorem vmSuffix_of_spec {suffix : Str}
    (hsuffix : suffix = [] ∨
      ∃ c r, suffix = c :: r ∧ (c = '+' ∨ c = '-') ∧ r ≠ [] ∧ ∀ x ∈ r, x ≠ '\n') :
    vmSuffix suffix = true := by
  rcases hsuffix with rfl | ⟨c, r, rfl, hc, hrne, hr⟩
  · rfl
  · have hcl : (r.getLast? == some '\n') = false := by
      cases hl : r.getLast? with
      | none => rfl
      | some a =>
        have ha : a ∈ r := List.mem_of_getLast?_eq_some hl
        have : a ≠ '\n' := hr a ha
        simp [this]
    have hrall : r.all (fun x => x != '\n') = true :=
      List.all_eq_true.mpr fun x hx => by simpa using hr x hx
    rcases hc with rfl | rfl <;>
      simp [vmSuffix, dotPlusEnd, hcl, hrne, hrall]

theorem suffix_head_not_digit {suffix : Str}
    (hsuffix : suffix = [] ∨
      ∃ c r, suffix = c :: r ∧ (c = '+' ∨ c = '-') ∧ r ≠ [] ∧ ∀ x ∈ r, x ≠ '\n') :
    suffix.takeWhile pyIsDigit = [] ∧ suffix.dropWhile pyIsDigit = suffix := by
  rcases hsuffix with rfl | ⟨c, r, rfl, hc, -, -⟩
  · exact ⟨rfl, rfl⟩
  · rcases hc with rfl | rfl <;>
      exact ⟨takeWhile_cons_of_neg _ (by decide), dropWhile_cons_of_neg _ (by decide)⟩

/-- Every string of the spec's version grammar is accepted by the code's
`VERSION_PATTERN` matcher. -/
theorem versionMatch_of_specGrammar {s : Str} (h : SpecVersionGrammar s) :
    versionMatch s = true := by
  obtain ⟨vp, d1, d2, patch, suffix, hvp, hd1ne, hd1, hd2ne, hd2, hpatch, hsuffix, hs⟩ := h
  have hps : (patch ++ suffix).takeWhile pyIsDigit = [] ∧
      (patch ++ suffix).dropWhile pyIsDigit = patch ++ suffix := by
    rcases hpatch with rfl | ⟨p, rfl, hpne, hp⟩
    · simpa using suffix_head_not_digit hsuffix
    · simp only [List.cons_append]
      exact ⟨takeWhile_cons_of_neg _ (by decide), dropWhile_cons_of_neg _ (by decide)⟩
  have hminor : vmAfterMinor (patch ++ suffix) = true := by
    unfold vmAfterMinor
    rcases hpatch with rfl | ⟨p, rfl, hpne, hp⟩
    · rcases hsuffix with h0 | h0
      · rcases h0 with rfl
        exact vmSuffix_of_spec (Or.inl rfl)
      · obtain ⟨c, r, rfl, hc, hrne, hr⟩ := h0
        have hpc : vmPatch ([] ++ c :: r) = c :: r := by
          rcases hc with rfl | rfl <;> rfl
        rw [hpc]
        exact vmSuffix_of_spec (Or.inr ⟨c, r, rfl, hc, hrne, hr⟩)
    · have htp : (p ++ suffix).takeWhile pyIsDigit = p := by
        rw [takeWhile_append_of_all _ hp, (suffix_head_not_digit hsuffix).1, List.append_nil]
      have hdp : (p ++ suffix).dropWhile pyIsDigit = suffix := by
        rw [dropWhile_append_of_all _ hp, (suffix_head_not_digit hsuffix).2]
      have hpc : vmPatch ('.' :: p ++ suffix) = suffix := by
        show vmPatch ('.' :: (p ++ suffix)) = suffix
        simp only [vmPatch]
        rw [htp, hdp]
        simp [List.isEmpty_iff, hpne]
      rw [List.cons_append] at hpc ⊢
      rw [hpc]
      exact vmSuffix_of_spec hsuffix
  have hmajor : vmAfterMajor ('.' :: (d2 ++ (patch ++ suffix))) = true := by
    simp only [vmAfterMajor]
    have ht2 : (d2 ++ (patch ++ suffix)).takeWhile pyIsDigit = d2 := by
      rw [takeWhile_append_of_all _ hd2, hps.1, List.append_nil]
    have hd2' : (d2 ++ (patch ++ suffix)).dropWhile pyIsDigit = patch ++ suffix := by
      rw [dropWhile_append_of_all _ hd2, hps.2]
    rw [ht2, hd2']
    simp [List.isEmpty_iff, hd2ne, hminor]
  have hafter : vmAfterV (d1 ++ '.' :: (d2 ++ (patch ++ suffix))) = true := by
    unfold vmAfterV
    have ht1 : (d1 ++ '.' :: (d2 ++ (patch ++ suffix))).takeWhile pyIsDigit = d1 := by
      rw [takeWhile_append_of_all _ hd1, takeWhile_cons_of_neg _ (by decide), List.append_nil]
    have hdr1 : (d1 ++ '.' :: (d2 ++ (patch ++ suffix))).dropWhile pyIsDigit =
        '.' :: (d2 ++ (patch ++ suffix)) := by
      rw [dropWhile_append_of_all _ hd1, dropWhile_cons_of_neg _ (by decide)]
    rw [ht1, hdr1]
    simp [List.isEmpty_iff, hd1ne, hmajor]
  have hsnorm : s = vp ++ (d1 ++ '.' :: (d2 ++ (patch ++ suffix))) := by
    rw [hs]
    simp [List.append_assoc]
  unfold versionMatch
  rcases hvp with rfl | rfl
  · obtain ⟨c, w, hcw⟩ : ∃ c w, d1 = c :: w := by
      cases d1
      · exact absurd rfl hd1ne
      · exact ⟨_, _, rfl⟩
    have hcne : c ≠ 'v' := digit_ne_v (hd1 c (hcw ▸ List.mem_cons_self c w))
    have h2 : vStrip s = d1 ++ '.' :: (d2 ++ (patch ++ suffix)) := by
      rw [hsnorm, List.nil_append, hcw]
      show vStrip (c :: (w ++ '.' :: (d2 ++ (patch ++ suffix)))) =
        c :: (w ++ '.' :: (d2 ++ (patch ++ suffix)))
      exact vStrip_ne_v _ hcne
    rw [h2]
    exact hafter
  · have h2 : vStrip s = d1 ++ '.' :: (d2 ++ (patch ++ suffix)) := by
      rw [hsnorm]
      rfl
    rw [h2]
    exact hafter

/-! ## Claim theorems -/

/-- C1: for every requested version tag (a string of the version grammar)
and wellformed hash-subject stream, range extraction scans top to bottom
and returns the commit id of the first pair whose subject contains the tag
as a substring; if either requested tag has no matching pair,
`get_commits_between` fails with the fatal error (message on the error
stream, no changelog output). -/
theorem C1_range_extraction (fromV toV : Str) (pairs : List (Str × Str))
    (rangeLog : List Str)
    (hfrom : versionMatch fromV = true) (hto : versionMatch toV = true)
    (hwf : ∀ p ∈ pairs, p.1 ≠ [] ∧ ∀ c ∈ p.1, hexChar c = true) :
    (find_commit_for_version fromV (pairs.map logLine) =
        (pairs.find? (fun p => pyContains fromV p.2)).map Prod.fst) ∧
    (find_commit_for_version toV (pairs.map logLine) =
        (pairs.find? (fun p => pyContains toV p.2)).map Prod.fst) ∧
    ((pairs.find? (fun p => pyContains fromV p.2) = none ∨
        pairs.find? (fun p => pyContains toV p.2) = none) →
      get_commits_between fromV toV (pairs.map logLine) rangeLog =
        Except.error "Could not find commits for versions".toList) := by
  have h1 := find_commit_eq hfrom pairs hwf
  have h2 := find_commit_eq hto pairs hwf
  refine ⟨h1, h2, fun hnone => ?_⟩
  unfold get_commits_between
  rcases hnone with hn | hn
  · rw [if_neg (by simp [h1, hn, pyTruthy])]
  · rw [if_neg (by simp [h2, hn, pyTruthy])]

theorem C1_range_extraction_witness :
    get_commits_between "1.0".toList "9.9".toList
        ([("abc123".toList, "release v1.1".toList),
          ("def456".toList, "chore: v1.0".toList)].map logLine) [] =
      Except.error "Could not find commits for versions".toList :=
  (C1_range_extraction "1.0".toList "9.9".toList
      [("abc123".toList, "release v1.1".toList),
        ("def456".toList, "chore: v1.0".toList)] []
      (by decide) (by decide) (by decide)).2.2 (Or.inr (by decide))

/-- C2: `parse_commit` is total and case-complete: a version-grammar
subject is discarded; otherwise a conventional-commit subject yields
exactly one record with the lower-cased type, the optional scope and the
description groups; otherwise exactly one `other` record carrying the
whole subject.  No other outcome exists. -/
theorem C2_parse_commit_total (s : Str) :
    (versionMatch s = true ∧ parse_commit s = none) ∨
    (versionMatch s = false ∧ ∃ t sc d, convMatch s = some (t, sc, d) ∧
      parse_commit s = some ⟨t.map Char.toLower, sc, d⟩) ∨
    (versionMatch s = false ∧ convMatch s = none ∧
      parse_commit s = some ⟨"other".toList, none, s⟩) := by
  by_cases hv : versionMatch s = true
  · exact Or.inl ⟨hv, by simp [parse_commit, hv]⟩
  · have hvf : versionMatch s = false := by simpa using hv
    cases hc : convMatch s with
    | none => exact Or.inr (Or.inr ⟨hvf, rfl, by simp [parse_commit, hvf, hc]⟩)
    | some out =>
      obtain ⟨t, sc, d⟩ := out
      exact Or.inr (Or.inl ⟨hvf, t, sc, d, rfl, by simp [parse_commit, hvf, hc]⟩)

/-- C3 (amended): each line is classified on its ANSI-stripped view but
emitted verbatim; a file header contributes a rule, the derived label line
(when present), another rule, then the header; non-headers pass through
unchanged.  The additional leading separator appears before every file
block except when nothing has been emitted yet, i.e. when the header is
the first line of the stream (not, as the claim said, before every file
block except the first file block).  The two-header example renders as
claimed because there the first header is the first line. -/
theorem C3_diff_reporter_amended :
    (∀ l ls, format_diff_lines (l :: ls) =
      line_block l true ++ ls.flatMap (fun x => line_block x false)) ∧
    (∀ l first, isDiffHeader l = false → line_block l first = [l]) ∧
    (∀ l first, isDiffHeader l = true →
      line_block l first =
        (if first then [] else [sep_line]) ++ [sep_line] ++
          (if (file_label (stripAnsi l)).isEmpty then []
           else ["File: ".toList ++ file_label (stripAnsi l)]) ++ [sep_line, l]) ∧
    format_diff_lines
        ["diff --git a/x.txt b/y.txt".toList, "diff --git a/x.txt b/y.txt".toList] =
      [sep_line, "File: x.txt -> y.txt".toList, sep_line,
       "diff --git a/x.txt b/y.txt".toList, sep_line, sep_line,
       "File: x.txt -> y.txt".toList, sep_line,
       "diff --git a/x.txt b/y.txt".toList] := by
  refine ⟨format_diff_lines_cons, ?_, ?_, by decide⟩
  · intro l first h
    simp [line_block, h]
  · intro l first h
    simp [line_block, h]

theorem C3_diff_reporter_witness :
    format_diff_lines ["hello".toList, "diff --git a/x.txt b/y.txt".toList] =
      line_block "hello".toList true ++
        ["diff --git a/x.txt b/y.txt".toList].flatMap (fun x => line_block x false) ∧
    line_block "hello".toList true = ["hello".toList] :=
  ⟨C3_diff_reporter_amended.1 "hello".toList ["diff --git a/x.txt b/y.txt".toList],
   C3_diff_reporter_amended.2.1 "hello".toList true (by decide)⟩

/-- C3 counterexample: on a stream whose first line is not a file header,
the very first file block is preceded by the additional leading separator
(two consecutive rules), contradicting the claim's "additional leading
separator before every file block except the very first". -/
theorem C3_diff_reporter_counterexample :
    format_diff_lines ["hello".toList, "diff --git a/x.txt b/y.txt".toList] =
      ["hello".toList, sep_line, sep_line, "File: x.txt -> y.txt".toList, sep_line,
       "diff --git a/x.txt b/y.txt".toList] ∧
    format_diff_lines ["hello".toList, "diff --git a/x.txt b/y.txt".toList] ≠
      ["hello".toList, sep_line, "File: x.txt -> y.txt".toList, sep_line,
       "diff --git a/x.txt b/y.txt".toList] :=
  ⟨by decide, by decide⟩

/-- C4: the categories of the rendered changelog appear in strictly
ascending rank order (feat=1, fix=2, perf=3, chore=4, docs=5, refactor=6,
test=7, other=99) for every input commit stream; `format_output` iterates
exactly the rank-sorted category sequence. -/
theorem C4_rank_order (commits : List Str) :
    ((sorted_cats (categorize_commits commits)).map (fun p => rankOf p.1)).Pairwise
        (fun a b => a < b) ∧
    rankOf "feat".toList = 1 ∧ rankOf "fix".toList = 2 ∧ rankOf "perf".toList = 3 ∧
    rankOf "chore".toList = 4 ∧ rankOf "docs".toList = 5 ∧ rankOf "refactor".toList = 6 ∧
    rankOf "test".toList = 7 ∧ rankOf "other".toList = 99 ∧
    (∀ from_v to_v fmt emoji,
      format_output from_v to_v (categorize_commits commits) fmt emoji =
        joinNL (format_header from_v to_v fmt ::
          (sorted_cats (categorize_commits commits)).flatMap (category_block fmt emoji))) :=
  ⟨sorted_cats_ranks_lt commits, by decide, by decide, by decide, by decide, by decide,
   by decide, by decide, by decide, fun _ _ _ _ => rfl⟩

/-- C5: report well-formedness: every key of a categorized report is one
of the eight fixed categories (unknown types are folded into `other` at
categorization time, while the record keeps its parsed type), and every
category present holds at least one record, so empty categories never
appear. -/
theorem C5_report_wellformed (commits : List Str) :
    ∀ p ∈ categorize_commits commits,
      keyMem p.1 CATEGORIES = true ∧ p.2 ≠ [] ∧
        ∀ r ∈ p.2, p.1 = (if keyMem r.type CATEGORIES then r.type else "other".toList) := by
  intro p hp
  obtain ⟨h1, h2, h3⟩ := categorize_wf commits p hp
  exact ⟨h1, h2, fun r hr => h3 r hr⟩

theorem C5_report_wellformed_witness :
    keyMem ("feat".toList) CATEGORIES = true ∧
      ([(⟨"feat".toList, none, "a".toList⟩ : Commit)] : List Commit) ≠ [] ∧
      ∀ r ∈ ([(⟨"feat".toList, none, "a".toList⟩ : Commit)] : List Commit),
        "feat".toList = (if keyMem r.type CATEGORIES then r.type else "other".toList) :=
  C5_report_wellformed ["feat: a".toList]
    ("feat".toList, [⟨"feat".toList, none, "a".toList⟩]) (by decide)

/-- C6: with `emoji = false` the heading shows the label with its leading
symbol run (plus surrounding whitespace) stripped, exactly the spec's
stripping rule applied to the embedded label constant; with `emoji = true`
the full label is shown.  In particular `feat` renders as `Features:`. -/
theorem C6_category_title :
    (∀ p ∈ CATEGORIES,
      get_category_title p.1 true = p.2.1 ∧
      get_category_title p.1 false = specStrip p.2.1) ∧
    get_category_title "feat".toList false = "Features".toList ∧
    category_heading "text".toList "feat".toList false = "Features:".toList := by
  refine ⟨?_, by decide, by decide⟩
  decide

theorem C6_category_title_witness :
    get_category_title "feat".toList true = "✨ Features".toList ∧
    get_category_title "feat".toList false = specStrip "✨ Features".toList :=
  C6_category_title.1 ("feat".toList, "✨ Features".toList, 1) (by decide)

/-- C7: within each category the records are exactly the order-preserving
filter of the parsed input stream (categorization never reorders, unknown
types included via the `other` bucket), and rendering maps over that list
in order. -/
theorem C7_within_category_order (commits : List Str) (k : Str) :
    lookupD (categorize_commits commits) k =
      (commits.filterMap parse_commit).filter
        (fun r => decide (bucketOf r.type = k)) ∧
    (∀ fmt emoji p, category_block fmt emoji p =
      if p.2.isEmpty then []
      else category_heading fmt p.1 emoji :: (p.2.map format_record_line ++ [[]])) :=
  ⟨categorize_lookup commits k, fun _ _ _ => rfl⟩

/-- C8: every string of the spec's version grammar is accepted by
`isVersionTag`, and every conventional-commit-shaped string whose type is
not numeric-only is rejected (the code in fact rejects every
conventional-commit-shaped string). -/
theorem C8_version_grammar :
    (∀ s, SpecVersionGrammar s → versionMatch s = true) ∧
    (∀ s t sc d, convMatch s = some (t, sc, d) →
      (∃ c ∈ t, pyIsDigit c = false) → versionMatch s = false) := by
  constructor
  · intro s h
    exact versionMatch_of_specGrammar h
  · intro s t sc d h _
    exact versionMatch_of_conv h

theorem C8_version_grammar_witness :
    versionMatch "3.0.6+71".toList = true ∧
    versionMatch "feat(auth): add login".toList = false :=
  ⟨C8_version_grammar.1 "3.0.6+71".toList
      ⟨[], "3".toList, "0".toList, ".6".toList, "+71".toList, Or.inl rfl, by decide,
        by decide, by decide, by decide,
        Or.inr ⟨"6".toList, by decide, by decide, by decide⟩,
        Or.inr ⟨'+', "71".toList, by decide, by decide, by decide, by decide⟩,
        by decide⟩,
   C8_version_grammar.2 "feat(auth): add login".toList "feat".toList
      (some "auth".toList) "add login".toList (by decide) ⟨'f', by decide, by decide⟩⟩

/-- C9: rendering is deterministic: `format_output` is a pure function of
the report, the version labels, the format and the emoji flag (no clock,
no randomness, no external state in the embedding), so two invocations on
identical inputs yield identical strings. -/
theorem C9_render_deterministic (from_v to_v : Str)
    (categorized : List (Str × List Commit)) (fmt : Str) (emoji : Bool) :
    format_output from_v to_v categorized fmt emoji =
      format_output from_v to_v categorized fmt emoji := rfl

/-- C10: a line whose ANSI-stripped view starts with `diff --git ` but has
fewer than four whitespace tokens still gets its separator rules (with the
extra leading rule exactly when output precedes it) but no file-label line
between them, before the original line. -/
theorem C10_short_header_no_label (pre post : List Str) (line : Str)
    (h1 : isDiffHeader line = true) (h2 : (pySplit (stripAnsi line)).length < 4) :
    format_diff_lines (pre ++ line :: post) =
      format_diff_lines pre ++ (if pre = [] then [] else [sep_line]) ++
        [sep_line, sep_line, line] ++ post.flatMap (fun l => line_block l false) := by
  have hlb : ∀ first, line_block line first =
      (if first then [] else [sep_line]) ++ [sep_line, sep_line, line] := by
    intro first
    unfold line_block
    rw [if_pos h1, file_label_short h2]
    cases first <;> simp
  cases pre with
  | nil =>
    have h0 : format_diff_lines ([] : List Str) = [] := rfl
    rw [List.nil_append, format_diff_lines_cons, hlb true, h0]
    simp
  | cons p ps =>
    rw [show (p :: ps) ++ line :: post = p :: (ps ++ line :: post) from rfl,
      format_diff_lines_cons, format_diff_lines_cons, List.flatMap_append,
      List.flatMap_cons, hlb false]
    simp [List.append_assoc]

theorem C10_short_header_witness :
    format_diff_lines (["x".toList] ++ "diff --git a/1".toList :: []) =
      format_diff_lines ["x".toList] ++
        (if (["x".toList] : List Str) = [] then [] else [sep_line]) ++
        [sep_line, sep_line, "diff --git a/1".toList] ++
        ([] : List Str).flatMap (fun l => line_block l false) :=
  C10_short_header_no_label ["x".toList] [] "diff --git a/1".toList
    (by decide) (by decide)
